import Mathlib

/-!
A shallow embedding of the `lurien` in-process statistical profiler
(`src/include/lurien/lurien.h`), covering the per-thread sampling state
(`ThreadSamplingData`), its operations `Update` (scope enter/exit) and
`TakeSample`, the teardown-time accumulation and emission performed by
`~ThreadSamplingData`, and the global `Init`/`Stop` sampler state machine.

Modelling conventions:
* `std::size_t` hash values and XOR-combined path identifiers are `Nat`;
  XOR of values below `2 ^ 64` never leaves that range, so no wraparound
  arithmetic is needed for them.  `std::uint64_t` sample counters are `Nat`;
  their `2 ^ 64` wraparound is not modelled (it would require more than
  `2 ^ 64` increments, i.e. a trace of that length).
* `std::hash<std::string>` is implementation defined, so the hash function is
  an arbitrary parameter `h : String → Nat`.
* Tree nodes (`ScopeOutput`) live in an inductive tree; the C++ raw pointers
  into the tree (`current_scope_`, the values of `scope_data_`) are modelled
  as stable child-index paths from the root (`std::list::push_back` never
  invalidates nor reorders existing elements, so an index path is a faithful
  stable address).
* The C++ `double` division in the destructor is modelled over `ℚ`; a zero
  divisor yields `none` (IEEE produces NaN for `0.0/0.0` and +inf otherwise,
  never a finite real value), a nonzero divisor yields the exact quotient.
* Operations whose only effect in C++ would be undefined behaviour
  (dereferencing a null `ScopeOutput*` fabricated by `operator[]` on a
  missing key, or following a dangling node address) are modelled by
  returning `none` from the operation.
-/

namespace Lurien

/-- `ScopeOutput` from `lurien.h`: a node of the per-thread call tree.
`scope_outputs` is the inherited `OutputNode::scope_outputs_` child list
(insertion ordered), `samples` is `samples_`, `cpu_proportion` is
`cpu_proportion_` as an exact rational, `none` standing for the non-finite
IEEE values NaN/inf. -/
inductive ScopeOutput : Type where
  | mk (scope_outputs : List ScopeOutput) (name : String) (samples : Nat)
       (cpu_proportion : Option ℚ)

/-- The child list `scope_outputs_` of a node. -/
def ScopeOutput.scope_outputs : ScopeOutput → List ScopeOutput
  | .mk cs _ _ _ => cs

/-- The `name_` field of a node. -/
def ScopeOutput.name : ScopeOutput → String
  | .mk _ n _ _ => n

/-- The `samples_` field of a node. -/
def ScopeOutput.samples : ScopeOutput → Nat
  | .mk _ _ s _ => s

/-- The `cpu_proportion_` field of a node (`none` = NaN/inf). -/
def ScopeOutput.cpu_proportion : ScopeOutput → Option ℚ
  | .mk _ _ _ p => p

/-- IEEE-style division used by the destructor's
`parent.cpu_proportion_ = double(parent.samples_) / total_samples_;`:
division by zero does not produce a finite real number (NaN for `0/0`,
+inf otherwise), modelled as `none`; otherwise the exact quotient. -/
def ieeeDiv (a b : Nat) : Option ℚ :=
  if b = 0 then none else some ((a : ℚ) / (b : ℚ))

/-- Resolve a child-index path to the node it addresses, inside a forest
(the root's child list).  The empty path addresses the root `ThreadOutput`
itself, which is not a `ScopeOutput`, hence `none`. -/
def getNode? : List ScopeOutput → List Nat → Option ScopeOutput
  | _, [] => none
  | F, i :: rest =>
    match F[i]? with
    | none => none
    | some nd => if rest.isEmpty then some nd else getNode? nd.scope_outputs rest

/-- `parent->scope_outputs_.push_back(c)` followed by taking
`&parent->scope_outputs_.back()`: append `c` to the child list of the node
addressed by the path (the root's own list for the empty path) and return the
updated forest together with the path of the appended node.  `none` models
following a path that addresses no node (a dangling pointer). -/
def pushBackAt : List ScopeOutput → List Nat → ScopeOutput → Option (List ScopeOutput × List Nat)
  | F, [], c => some (F ++ [c], [F.length])
  | F, i :: rest, c =>
    match F[i]? with
    | none => none
    | some (.mk cs n s p) =>
      (pushBackAt cs rest c).map fun r => (F.set i (.mk r.1 n s p), i :: r.2)

/-- `++current_scope_->samples_`: increment the own sample count of the node
addressed by the path; identity when the path addresses no node (which the
per-state invariant rules out, matching the always-valid C++ pointer). -/
def incSamples : List ScopeOutput → List Nat → List ScopeOutput
  | F, [] => F
  | F, i :: rest =>
    match F[i]? with
    | none => F
    | some (.mk cs n s p) =>
      if rest.isEmpty then F.set i (.mk cs n (s + 1) p)
      else F.set i (.mk (incSamples cs rest) n s p)

/-- The child list of the node addressed by a path (the whole forest for the
empty path, i.e. the root's `scope_outputs_`). -/
def childrenAt (F : List ScopeOutput) (p : List Nat) : Option (List ScopeOutput) :=
  match p with
  | [] => some F
  | _ :: _ => (getNode? F p).map ScopeOutput.scope_outputs

/-- Lookup in the `scope_data_` map, modelled as an insertion-ordered
association list with unique keys (`std::unordered_map` up to iteration
order, which the code never relies on). -/
def mapLookup (k : Nat) : List (Nat × List Nat) → Option (List Nat)
  | [] => none
  | (k', v) :: rest => if k' = k then some v else mapLookup k rest

/-- The sum of the `samples_` fields of the top level of a child list, as
accumulated by the destructor's loop `parent.samples_ += accumulate_stats(child)`
(each recursive call returns the child's final count). -/
def topSamplesSum : List ScopeOutput → Nat
  | [] => 0
  | c :: rest => c.samples + topSamplesSum rest

/-- The post-order accumulation `accumulate_stats` of `~ThreadSamplingData`,
mapped over a whole child list (the destructor runs it over every child of
the root): each node's children are accumulated first, the node's count
becomes its own count plus the sum of its children's final counts, and its
proportion becomes that count divided by `total` (IEEE division, see
`ieeeDiv`; the C++ code performs the division with no guard on `total`). -/
def accumulateList (total : Nat) : List ScopeOutput → List ScopeOutput
  | [] => []
  | .mk cs n s _ :: rest =>
    let cs' := accumulateList total cs
    let s' := s + topSamplesSum cs'
    .mk cs' n s' (ieeeDiv s' total) :: accumulateList total rest

/-- Total samples recorded anywhere in a forest. -/
def forestSamples : List ScopeOutput → Nat
  | [] => 0
  | .mk cs _ s _ :: rest => (s + forestSamples cs) + forestSamples rest

/-- Own samples plus all descendant samples of one node. -/
def treeSamples (nd : ScopeOutput) : Nat :=
  nd.samples + forestSamples nd.scope_outputs

/-- `P` holds of every node of the forest, at every depth. -/
def forestAll (P : ScopeOutput → Prop) : List ScopeOutput → Prop
  | [] => True
  | .mk cs n s p :: rest =>
    P (.mk cs n s p) ∧ forestAll P cs ∧ forestAll P rest

/-- The per-thread sampling state `ThreadSamplingData` from `lurien.h`.
`current_scope_hash` is the XOR-accumulated path identifier
`current_scope_hash_`; `scope_data` is the `scope_data_` map from path
identifiers to node addresses; `current_scope` is the `current_scope_`
pointer (`none` = `nullptr`); `output` is the root `ThreadOutput`'s child
list `output_.scope_outputs_` (the thread id is set only at destruction and
carries no tree content). -/
structure ThreadSamplingData where
  current_scope_hash : Nat
  total_samples : Nat
  scope_data : List (Nat × List Nat)
  current_scope : Option (List Nat)
  output : List ScopeOutput

/-- The freshly constructed state: `ThreadSamplingData::ThreadSamplingData`
sets `current_scope_hash_ = 0` and `total_samples_ = 0`; the containers are
default-empty and `current_scope_` is `nullptr`. -/
def initialState : ThreadSamplingData :=
  { current_scope_hash := 0
    total_samples := 0
    scope_data := []
    current_scope := none
    output := [] }

/-- `ThreadSamplingData::Update(name)` from `lurien.h`, for hash function `h`:
XOR the name's hash into the path id; if the result is `0` clear
`current_scope_`; else if the id is unseen, recover the parent id by XOR-ing
the hash back in, locate the parent (root if the parent id is `0`, else
`scope_data_[parent_hash]`), push a fresh node `{ {}, name, 0, 0 }` onto the
parent's child list, record the mapping and point `current_scope_` at the new
node; else point `current_scope_` at the already-mapped node.  Returns `none`
exactly when C++ would dereference a null or dangling node pointer (a missing
parent entry fabricated by `operator[]`, or an unresolvable stored address). -/
def Update (h : String → Nat) (name : String) (s : ThreadSamplingData) :
    Option ThreadSamplingData :=
  let k := Nat.xor s.current_scope_hash (h name)
  if k = 0 then
    some { s with current_scope_hash := k, current_scope := none }
  else
    match mapLookup k s.scope_data with
    | some p => some { s with current_scope_hash := k, current_scope := some p }
    | none =>
      let parent_hash := Nat.xor k (h name)
      match (if parent_hash = 0 then some ([] : List Nat)
             else mapLookup parent_hash s.scope_data) with
      | none => none
      | some pp =>
        match pushBackAt s.output pp (ScopeOutput.mk [] name 0 (some 0)) with
        | none => none
        | some (F', q) =>
          some { s with current_scope_hash := k
                        current_scope := some q
                        scope_data := s.scope_data ++ [(k, q)]
                        output := F' }

/-- `ThreadSamplingData::TakeSample` from `lurien.h`: if `current_scope_` is
not null, increment that node's `samples_`; unconditionally increment
`total_samples_`. -/
def TakeSample (s : ThreadSamplingData) : ThreadSamplingData :=
  { s with
    output := match s.current_scope with
      | none => s.output
      | some p => incSamples s.output p
    total_samples := s.total_samples + 1 }

/-- One operation on a per-thread state: a scope enter/exit (both call
`Update`) or a sampler visit (`TakeSample`). -/
inductive Op : Type where
  | update (name : String)
  | sample
deriving DecidableEq

/-- Apply one operation. -/
def step (h : String → Nat) (s : ThreadSamplingData) : Op → Option ThreadSamplingData
  | Op.update name => Update h name s
  | Op.sample => some (TakeSample s)

/-- Run a list of operations from a given state, stopping with `none` if any
step would be undefined behaviour in C++. -/
def runFrom (h : String → Nat) : ThreadSamplingData → List Op → Option ThreadSamplingData
  | s, [] => some s
  | s, op :: ops =>
    match step h s op with
    | none => none
    | some s' => runFrom h s' ops

/-- Run a list of operations from the freshly constructed state. -/
def run (h : String → Nat) (ops : List Op) : Option ThreadSamplingData :=
  runFrom h initialState ops

/-- The sink invocations performed by `~ThreadSamplingData`: it accumulates
the tree (`accumulateList`) and then calls `Ext::receiver->HandleOutput`
exactly once, unconditionally — there is no branch skipping the call.
`has_receiver = false` models `Ext::receiver` still null (no prior `Init`);
the result `none` models the null-receiver dereference, and `some outs`
the list of `HandleOutput` invocations (always a single tree). -/
def destructorEmits (has_receiver : Bool) (s : ThreadSamplingData) :
    Option (List (List ScopeOutput)) :=
  if has_receiver then some [accumulateList s.total_samples s.output] else none

/-- State of the sampler worker thread owned by `Ext::sampling_worker`. -/
inductive WorkerState : Type where
  | running
  | joined
deriving DecidableEq

/-- The process-wide sampler state held in `struct Ext` of `lurien.h`:
`keep_sampling` is `Ext::keep_sampling`, `sampling_worker` is
`Ext::sampling_worker` (`none` = null `unique_ptr`; `joined` once
`Stop` has joined it), `has_receiver` records whether `Ext::receiver`
has been installed. -/
structure ExtState where
  keep_sampling : Bool
  sampling_worker : Option WorkerState
  has_receiver : Bool
deriving DecidableEq

/-- The static initial values: `keep_sampling = true`, no worker thread, no
receiver. -/
def extInitial : ExtState :=
  { keep_sampling := true, sampling_worker := none, has_receiver := false }

/-- `lurien::details::Init` from `lurien.h`: if no worker thread exists,
install the receiver and spawn the sampler thread; otherwise do nothing. -/
def Init (s : ExtState) : ExtState :=
  if s.sampling_worker.isNone then
    { keep_sampling := s.keep_sampling
      sampling_worker := some WorkerState.running
      has_receiver := true }
  else s

/-- `lurien::details::Stop` from `lurien.h`: if `keep_sampling` is set and a
worker thread exists, clear the flag (which makes the sampler loop exit, so
the join terminates) and join the thread; otherwise do nothing.  `none`
models `std::thread::join` on a non-joinable thread (`std::terminate`). -/
def Stop (s : ExtState) : Option ExtState :=
  if s.keep_sampling && s.sampling_worker.isSome then
    match s.sampling_worker with
    | some WorkerState.running =>
      some { keep_sampling := false
             sampling_worker := some WorkerState.joined
             has_receiver := s.has_receiver }
    | some WorkerState.joined => none
    | none => none
  else some s

/-- A call to the public lifecycle interface. -/
inductive GOp : Type where
  | init
  | stop
deriving DecidableEq

/-- Apply one lifecycle call. -/
def gstep (s : ExtState) : GOp → Option ExtState
  | GOp.init => some (Init s)
  | GOp.stop => Stop s

/-- Run a sequence of lifecycle calls from the static initial state;
`none` models a `std::terminate` from a double join. -/
def grun : ExtState → List GOp → Option ExtState
  | s, [] => some s
  | s, g :: gs =>
    match gstep s g with
    | none => none
    | some s' => grun s' gs

/-! ### Basic facts about XOR and the map model -/

theorem xor_xor_cancel (a b : Nat) : Nat.xor (Nat.xor a b) b = a := by
  show a ^^^ b ^^^ b = a
  rw [Nat.xor_assoc, Nat.xor_self, Nat.xor_zero]

theorem mapLookup_mem {k : Nat} {v : List Nat} :
    ∀ {l : List (Nat × List Nat)}, mapLookup k l = some v → (k, v) ∈ l := by
  intro l
  induction l with
  | nil => intro hx; simp [mapLookup] at hx
  | cons kv rest ih =>
    obtain ⟨k', v'⟩ := kv
    intro hx
    by_cases hk : k' = k
    · simp only [mapLookup, if_pos hk, Option.some.injEq] at hx
      subst hx
      rw [← hk]
      exact List.mem_cons_self _ _
    · simp only [mapLookup, if_neg hk] at hx
      exact List.mem_cons_of_mem _ (ih hx)

theorem mapLookup_append_none {k : Nat} {l : List (Nat × List Nat)}
    (h : mapLookup k l = none) (v : List Nat) :
    mapLookup k (l ++ [(k, v)]) = some v := by
  induction l with
  | nil => simp [mapLookup]
  | cons kv rest ih =>
    obtain ⟨k', v'⟩ := kv
    by_cases hk : k' = k
    · simp [mapLookup, hk] at h
    · simp only [mapLookup, if_neg hk] at h
      simpa only [List.cons_append, mapLookup, if_neg hk] using ih h

theorem mapLookup_append_some {k : Nat} {v : List Nat} {l l₂ : List (Nat × List Nat)}
    (h : mapLookup k l = some v) : mapLookup k (l ++ l₂) = some v := by
  induction l with
  | nil => simp [mapLookup] at h
  | cons kv rest ih =>
    obtain ⟨k', v'⟩ := kv
    by_cases hk : k' = k
    · simp only [mapLookup, if_pos hk] at h
      simpa only [List.cons_append, mapLookup, if_pos hk] using h
    · simp only [mapLookup, if_neg hk] at h
      simpa only [List.cons_append, mapLookup, if_neg hk] using ih h

/-! ### Facts about node addressing, `pushBackAt` and `incSamples` -/
theorem isEmpty_false {α : Type} {l : List α} (h : l ≠ []) : l.isEmpty = false := by
  cases l with
  | nil => exact absurd rfl h
  | cons a as => rfl

theorem forestSamples_cons (nd : ScopeOutput) (rest : List ScopeOutput) :
    forestSamples (nd :: rest) = treeSamples nd + forestSamples rest := by
  obtain ⟨cs, n, s, q⟩ := nd
  simp only [forestSamples, treeSamples, ScopeOutput.samples, ScopeOutput.scope_outputs]

theorem forestSamples_append_single (F : List ScopeOutput) (c : ScopeOutput) :
    forestSamples (F ++ [c]) = forestSamples F + treeSamples c := by
  induction F with
  | nil =>
    simp only [List.nil_append, forestSamples_cons]
    simp [forestSamples]
  | cons x xs ih =>
    rw [List.cons_append, forestSamples_cons, forestSamples_cons, ih]
    omega

theorem getNode?_append {F L : List ScopeOutput} :
    ∀ {r : List Nat}, (getNode? F r).isSome → getNode? (F ++ L) r = getNode? F r := by
  intro r
  cases r with
  | nil => intro hx; simp [getNode?] at hx
  | cons j r' =>
    intro hx
    cases hFj : F[j]? with
    | none => simp [getNode?, hFj] at hx
    | some nd =>
      have hj : j < F.length := (List.getElem?_eq_some.mp hFj).1
      simp only [getNode?, List.getElem?_append_left hj, hFj]

theorem forestSamples_set (nd' : ScopeOutput) {nd : ScopeOutput} :
    ∀ {F : List ScopeOutput} {i : Nat}, F[i]? = some nd →
      forestSamples (F.set i nd') + treeSamples nd = forestSamples F + treeSamples nd' := by
  intro F
  induction F with
  | nil => intro i h; simp at h
  | cons x xs ih =>
    intro i h
    cases i with
    | zero =>
      simp only [List.getElem?_cons_zero, Option.some.injEq] at h
      subst h
      simp only [List.set_cons_zero, forestSamples_cons]
      omega
    | succ i' =>
      simp only [List.getElem?_cons_succ] at h
      simp only [List.set_cons_succ, forestSamples_cons]
      have := ih h
      omega

theorem pushBackAt_path_ne_nil {c : ScopeOutput} {F F' : List ScopeOutput}
    {p q : List Nat} (h : pushBackAt F p c = some (F', q)) : q ≠ [] := by
  cases p with
  | nil =>
    simp only [pushBackAt, Option.some.injEq, Prod.mk.injEq] at h
    intro hq; rw [← h.2] at hq; exact List.cons_ne_nil _ _ hq
  | cons i rest =>
    cases hFi : F[i]? with
    | none => simp [pushBackAt, hFi] at h
    | some nd =>
      obtain ⟨cs, n, s, pr⟩ := nd
      cases hrec : pushBackAt cs rest c with
      | none => simp [pushBackAt, hFi, hrec] at h
      | some r =>
        simp only [pushBackAt, hFi, hrec, Option.map_some', Option.some.injEq,
          Prod.mk.injEq] at h
        intro hq; rw [← h.2] at hq; exact List.cons_ne_nil _ _ hq

theorem pushBackAt_isSome {c : ScopeOutput} :
    ∀ {p : List Nat} {F : List ScopeOutput},
      p = [] ∨ (getNode? F p).isSome → (pushBackAt F p c).isSome := by
  intro p
  induction p with
  | nil => intro F _; simp [pushBackAt]
  | cons i rest ih =>
    intro F hF
    rcases hF with hF | hF
    · exact absurd hF (List.cons_ne_nil _ _)
    · cases hFi : F[i]? with
      | none => simp [getNode?, hFi] at hF
      | some nd =>
        obtain ⟨cs, n, s, pr⟩ := nd
        by_cases hre : rest = []
        · subst hre
          simp [pushBackAt, hFi]
        · simp only [getNode?, hFi, isEmpty_false hre, Bool.false_eq_true, if_false,
            ScopeOutput.scope_outputs] at hF
          have hrec := ih (Or.inr hF)
          cases hr : pushBackAt cs rest c with
          | none => rw [hr] at hrec; simp at hrec
          | some r => simp [pushBackAt, hFi, hr]

theorem pushBackAt_getNode_new {c : ScopeOutput} :
    ∀ {p : List Nat} {F F' : List ScopeOutput} {q : List Nat},
      pushBackAt F p c = some (F', q) → getNode? F' q = some c := by
  intro p
  induction p with
  | nil =>
    intro F F' q h
    simp only [pushBackAt, Option.some.injEq, Prod.mk.injEq] at h
    rw [← h.1, ← h.2]
    simp [getNode?, List.getElem?_concat_length]
  | cons i rest ih =>
    intro F F' q h
    cases hFi : F[i]? with
    | none => simp [pushBackAt, hFi] at h
    | some nd =>
      obtain ⟨cs, n, s, pr⟩ := nd
      cases hrec : pushBackAt cs rest c with
      | none => simp [pushBackAt, hFi, hrec] at h
      | some r₀ =>
        obtain ⟨cs', q'⟩ := r₀
        simp only [pushBackAt, hFi, hrec, Option.map_some', Option.some.injEq,
          Prod.mk.injEq] at h
        have hi : i < F.length := (List.getElem?_eq_some.mp hFi).1
        rw [← h.1, ← h.2]
        simp only [getNode?, List.getElem?_set_self hi,
          isEmpty_false (pushBackAt_path_ne_nil hrec), Bool.false_eq_true, if_false,
          ScopeOutput.scope_outputs]
        exact ih hrec

theorem pushBackAt_preserves {c : ScopeOutput} :
    ∀ {p : List Nat} {F F' : List ScopeOutput} {q : List Nat},
      pushBackAt F p c = some (F', q) →
      ∀ {r : List Nat}, (getNode? F r).isSome → (getNode? F' r).isSome := by
  intro p
  induction p with
  | nil =>
    intro F F' q h r hr
    simp only [pushBackAt, Option.some.injEq, Prod.mk.injEq] at h
    rw [← h.1, getNode?_append hr]
    exact hr
  | cons i rest ih =>
    intro F F' q h r hr
    cases hFi : F[i]? with
    | none => simp [pushBackAt, hFi] at h
    | some nd =>
      obtain ⟨cs, n, s, pr⟩ := nd
      cases hrec : pushBackAt cs rest c with
      | none => simp [pushBackAt, hFi, hrec] at h
      | some r₀ =>
        obtain ⟨cs', q'⟩ := r₀
        simp only [pushBackAt, hFi, hrec, Option.map_some', Option.some.injEq,
          Prod.mk.injEq] at h
        have hi : i < F.length := (List.getElem?_eq_some.mp hFi).1
        cases r with
        | nil => simp [getNode?] at hr
        | cons j r' =>
          by_cases hji : i = j
          · subst hji
            rw [getNode?, hFi] at hr
            rw [← h.1, getNode?, List.getElem?_set_self hi]
            by_cases hr' : r' = []
            · subst hr'; simp
            · rw [isEmpty_false hr'] at hr ⊢
              simp only [Bool.false_eq_true, if_false, ScopeOutput.scope_outputs] at hr ⊢
              exact ih hrec hr
          · rw [← h.1, getNode?, List.getElem?_set_ne hji]
            rw [getNode?] at hr
            exact hr

theorem pushBackAt_childrenAt {c : ScopeOutput} :
    ∀ {p : List Nat} {F F' : List ScopeOutput} {q : List Nat},
      pushBackAt F p c = some (F', q) →
      childrenAt F' p = (childrenAt F p).map (fun cs => cs ++ [c]) := by
  intro p
  induction p with
  | nil =>
    intro F F' q h
    simp only [pushBackAt, Option.some.injEq, Prod.mk.injEq] at h
    rw [← h.1]
    rfl
  | cons i rest ih =>
    intro F F' q h
    cases hFi : F[i]? with
    | none => simp [pushBackAt, hFi] at h
    | some nd =>
      obtain ⟨cs, n, s, pr⟩ := nd
      cases hrec : pushBackAt cs rest c with
      | none => simp [pushBackAt, hFi, hrec] at h
      | some r₀ =>
        obtain ⟨cs', q'⟩ := r₀
        simp only [pushBackAt, hFi, hrec, Option.map_some', Option.some.injEq,
          Prod.mk.injEq] at h
        have hi : i < F.length := (List.getElem?_eq_some.mp hFi).1
        by_cases hre : rest = []
        · subst hre
          simp only [pushBackAt, Option.some.injEq, Prod.mk.injEq] at hrec
          rw [← h.1, ← hrec.1]
          simp [childrenAt, getNode?, List.getElem?_set_self hi, hFi,
            ScopeOutput.scope_outputs]
        · have hchild := ih hrec
          rw [← h.1]
          cases hre2 : rest with
          | nil => exact absurd hre2 hre
          | cons a as =>
            rw [hre2] at hchild
            simp only [childrenAt, getNode?, List.getElem?_set_self hi, hFi,
              isEmpty_false (List.cons_ne_nil a as), Bool.false_eq_true,
              if_false, ScopeOutput.scope_outputs] at hchild ⊢
            exact hchild

theorem pushBackAt_forestSamples {c : ScopeOutput} :
    ∀ {p : List Nat} {F F' : List ScopeOutput} {q : List Nat},
      pushBackAt F p c = some (F', q) →
      forestSamples F' = forestSamples F + treeSamples c := by
  intro p
  induction p with
  | nil =>
    intro F F' q h
    simp only [pushBackAt, Option.some.injEq, Prod.mk.injEq] at h
    rw [← h.1]
    exact forestSamples_append_single F c
  | cons i rest ih =>
    intro F F' q h
    cases hFi : F[i]? with
    | none => simp [pushBackAt, hFi] at h
    | some nd =>
      obtain ⟨cs, n, s, pr⟩ := nd
      cases hrec : pushBackAt cs rest c with
      | none => simp [pushBackAt, hFi, hrec] at h
      | some r₀ =>
        obtain ⟨cs', q'⟩ := r₀
        simp only [pushBackAt, hFi, hrec, Option.map_some', Option.some.injEq,
          Prod.mk.injEq] at h
        have hset := forestSamples_set (ScopeOutput.mk cs' n s pr) hFi
        have hrec' := ih hrec
        have hts1 : treeSamples (ScopeOutput.mk cs n s pr) = s + forestSamples cs := by
          simp [treeSamples, ScopeOutput.samples, ScopeOutput.scope_outputs]
        have hts2 : treeSamples (ScopeOutput.mk cs' n s pr) = s + forestSamples cs' := by
          simp [treeSamples, ScopeOutput.samples, ScopeOutput.scope_outputs]
        rw [hts1, hts2] at hset
        rw [← h.1]
        omega
theorem incSamples_getNode_self :
    ∀ {p : List Nat} {F cs : List ScopeOutput} {n : String} {s : Nat} {q : Option ℚ},
      getNode? F p = some (ScopeOutput.mk cs n s q) →
      getNode? (incSamples F p) p = some (ScopeOutput.mk cs n (s + 1) q) := by
  intro p
  induction p with
  | nil => intro F cs n s q h; simp [getNode?] at h
  | cons i rest ih =>
    intro F cs n s q h
    cases hFi : F[i]? with
    | none => simp [getNode?, hFi] at h
    | some nd =>
      obtain ⟨cs0, n0, s0, q0⟩ := nd
      have hi : i < F.length := (List.getElem?_eq_some.mp hFi).1
      by_cases hre : rest = []
      · subst hre
        simp only [getNode?, hFi, List.isEmpty_nil, if_true, Option.some.injEq] at h
        obtain ⟨h1, h2, h3, h4⟩ := ScopeOutput.mk.injEq .. ▸ h
        subst h1; subst h2; subst h3; subst h4
        simp only [incSamples, hFi, List.isEmpty_nil, if_true]
        simp [getNode?, List.getElem?_set_self hi]
      · simp only [getNode?, hFi, isEmpty_false hre, Bool.false_eq_true, if_false,
          ScopeOutput.scope_outputs] at h
        simp only [incSamples, hFi, isEmpty_false hre, Bool.false_eq_true, if_false]
        simp only [getNode?, List.getElem?_set_self hi, isEmpty_false hre,
          Bool.false_eq_true, if_false, ScopeOutput.scope_outputs]
        exact ih h

theorem incSamples_getNode_isSome :
    ∀ {p : List Nat} {F : List ScopeOutput} {r : List Nat},
      (getNode? (incSamples F p) r).isSome = (getNode? F r).isSome := by
  intro p
  induction p with
  | nil => intro F r; rfl
  | cons i rest ih =>
    intro F r
    cases hFi : F[i]? with
    | none => simp [incSamples, hFi]
    | some nd =>
      obtain ⟨cs0, n0, s0, q0⟩ := nd
      have hi : i < F.length := (List.getElem?_eq_some.mp hFi).1
      by_cases hre : rest = []
      · subst hre
        simp only [incSamples, hFi, List.isEmpty_nil, if_true]
        cases r with
        | nil => simp [getNode?]
        | cons j r' =>
          by_cases hji : i = j
          · subst hji
            simp only [getNode?, List.getElem?_set_self hi, hFi]
            by_cases hr' : r' = []
            · subst hr'; simp
            · simp [isEmpty_false hr', ScopeOutput.scope_outputs]
          · simp only [getNode?, List.getElem?_set_ne hji]
      · simp only [incSamples, hFi, isEmpty_false hre, Bool.false_eq_true, if_false]
        cases r with
        | nil => simp [getNode?]
        | cons j r' =>
          by_cases hji : i = j
          · subst hji
            simp only [getNode?, List.getElem?_set_self hi, hFi]
            by_cases hr' : r' = []
            · subst hr'; simp
            · simp only [isEmpty_false hr', Bool.false_eq_true, if_false,
                ScopeOutput.scope_outputs]
              exact ih
          · simp only [getNode?, List.getElem?_set_ne hji]

theorem incSamples_samples_other :
    ∀ {p : List Nat} {F : List ScopeOutput} {r : List Nat}, r ≠ p →
      (getNode? (incSamples F p) r).map ScopeOutput.samples =
        (getNode? F r).map ScopeOutput.samples := by
  intro p
  induction p with
  | nil => intro F r _; rfl
  | cons i rest ih =>
    intro F r hr
    cases hFi : F[i]? with
    | none => simp [incSamples, hFi]
    | some nd =>
      obtain ⟨cs0, n0, s0, q0⟩ := nd
      have hi : i < F.length := (List.getElem?_eq_some.mp hFi).1
      by_cases hre : rest = []
      · subst hre
        simp only [incSamples, hFi, List.isEmpty_nil, if_true]
        cases r with
        | nil => simp [getNode?]
        | cons j r' =>
          by_cases hji : i = j
          · subst hji
            have hr' : r' ≠ [] := by
              intro hx; subst hx; exact hr rfl
            simp only [getNode?, List.getElem?_set_self hi, hFi, isEmpty_false hr',
              Bool.false_eq_true, if_false, ScopeOutput.scope_outputs]
          · simp only [getNode?, List.getElem?_set_ne hji]
      · simp only [incSamples, hFi, isEmpty_false hre, Bool.false_eq_true, if_false]
        cases r with
        | nil => simp [getNode?]
        | cons j r' =>
          by_cases hji : i = j
          · subst hji
            simp only [getNode?, List.getElem?_set_self hi, hFi]
            by_cases hr' : r' = []
            · subst hr'; simp [ScopeOutput.samples]
            · simp only [isEmpty_false hr', Bool.false_eq_true, if_false,
                ScopeOutput.scope_outputs]
              have : r' ≠ rest := by
                intro hx; subst hx; exact hr rfl
              exact ih this
          · simp only [getNode?, List.getElem?_set_ne hji]

theorem incSamples_forestSamples :
    ∀ {p : List Nat} {F : List ScopeOutput} {nd : ScopeOutput},
      getNode? F p = some nd →
      forestSamples (incSamples F p) = forestSamples F + 1 := by
  intro p
  induction p with
  | nil => intro F nd h; simp [getNode?] at h
  | cons i rest ih =>
    intro F nd h
    cases hFi : F[i]? with
    | none => simp [getNode?, hFi] at h
    | some nd0 =>
      obtain ⟨cs0, n0, s0, q0⟩ := nd0
      have hi : i < F.length := (List.getElem?_eq_some.mp hFi).1
      by_cases hre : rest = []
      · subst hre
        simp only [incSamples, hFi, List.isEmpty_nil, if_true]
        have hset := forestSamples_set (ScopeOutput.mk cs0 n0 (s0 + 1) q0) hFi
        have hts1 : treeSamples (ScopeOutput.mk cs0 n0 s0 q0) = s0 + forestSamples cs0 := by
          simp [treeSamples, ScopeOutput.samples, ScopeOutput.scope_outputs]
        have hts2 : treeSamples (ScopeOutput.mk cs0 n0 (s0 + 1) q0)
            = s0 + 1 + forestSamples cs0 := by
          simp [treeSamples, ScopeOutput.samples, ScopeOutput.scope_outputs]
        rw [hts1, hts2] at hset
        omega
      · simp only [getNode?, hFi, isEmpty_false hre, Bool.false_eq_true, if_false,
          ScopeOutput.scope_outputs] at h
        simp only [incSamples, hFi, isEmpty_false hre, Bool.false_eq_true, if_false]
        have hset := forestSamples_set
          (ScopeOutput.mk (incSamples cs0 rest) n0 s0 q0) hFi
        have hrec := ih h
        have hts1 : treeSamples (ScopeOutput.mk cs0 n0 s0 q0) = s0 + forestSamples cs0 := by
          simp [treeSamples, ScopeOutput.samples, ScopeOutput.scope_outputs]
        have hts2 : treeSamples (ScopeOutput.mk (incSamples cs0 rest) n0 s0 q0)
            = s0 + forestSamples (incSamples cs0 rest) := by
          simp [treeSamples, ScopeOutput.samples, ScopeOutput.scope_outputs]
        rw [hts1, hts2] at hset
        omega

/-! ### The per-state invariant maintained by every operation

`hash_scope` is the documented invariant tying the path id to the current
node; `hash_in_map` records that the current id, when nonzero, is always a
key of `scope_data_` (this is what makes the parent lookup in `Update`
total); `map_valid` and `cur_valid` say every stored node address resolves
(no dangling pointers); `counts` says the tree never holds more samples than
`total_samples_`. -/

structure Inv (s : ThreadSamplingData) : Prop where
  hash_scope : s.current_scope_hash = 0 ↔ s.current_scope = none
  hash_in_map : s.current_scope_hash = 0 ∨
    (mapLookup s.current_scope_hash s.scope_data).isSome
  map_valid : ∀ k p, (k, p) ∈ s.scope_data → (getNode? s.output p).isSome
  cur_valid : ∀ p, s.current_scope = some p → (getNode? s.output p).isSome
  counts : forestSamples s.output ≤ s.total_samples

theorem initialState_inv : Inv initialState := by
  constructor
  · simp [initialState]
  · left; rfl
  · intro k p hm; simp [initialState] at hm
  · intro p hp; simp [initialState] at hp
  · simp [initialState, forestSamples]

theorem treeSamples_fresh (name : String) :
    treeSamples (ScopeOutput.mk [] name 0 (some 0)) = 0 := by
  simp [treeSamples, ScopeOutput.samples, ScopeOutput.scope_outputs, forestSamples]

theorem Update_create_eq {h : String → Nat} {name : String} {s : ThreadSamplingData}
    {pp : List Nat} {F' : List ScopeOutput} {q : List Nat}
    (hk : ¬ Nat.xor s.current_scope_hash (h name) = 0)
    (hl : mapLookup (Nat.xor s.current_scope_hash (h name)) s.scope_data = none)
    (hpp : (if Nat.xor (Nat.xor s.current_scope_hash (h name)) (h name) = 0
            then some ([] : List Nat)
            else mapLookup (Nat.xor (Nat.xor s.current_scope_hash (h name)) (h name))
              s.scope_data) = some pp)
    (hFq : pushBackAt s.output pp (ScopeOutput.mk [] name 0 (some 0)) = some (F', q)) :
    Update h name s = some { s with
      current_scope_hash := Nat.xor s.current_scope_hash (h name)
      current_scope := some q
      scope_data := s.scope_data ++ [(Nat.xor s.current_scope_hash (h name), q)]
      output := F' } := by
  simp [Update, hk, hl, hpp, hFq]

theorem Update_some_inv (h : String → Nat) (name : String) {s : ThreadSamplingData}
    (hs : Inv s) : ∃ s', Update h name s = some s' ∧ Inv s' := by
  by_cases hk : Nat.xor s.current_scope_hash (h name) = 0
  · refine ⟨{ s with
        current_scope_hash := Nat.xor s.current_scope_hash (h name)
        current_scope := none },
      by simp [Update, hk], ?_⟩
    constructor
    · simp [hk]
    · left; exact hk
    · exact hs.map_valid
    · intro p hp; simp at hp
    · exact hs.counts
  · cases hl : mapLookup (Nat.xor s.current_scope_hash (h name)) s.scope_data with
    | some p =>
      refine ⟨{ s with
          current_scope_hash := Nat.xor s.current_scope_hash (h name)
          current_scope := some p },
        by simp [Update, hk, hl], ?_⟩
      constructor
      · exact iff_of_false hk (by simp)
      · right; simp [hl]
      · exact hs.map_valid
      · intro p' hp'
        simp only [Option.some.injEq] at hp'
        subst hp'
        exact hs.map_valid _ _ (mapLookup_mem hl)
      · exact hs.counts
    | none =>
      have hcur : Nat.xor (Nat.xor s.current_scope_hash (h name)) (h name)
          = s.current_scope_hash := xor_xor_cancel _ _
      by_cases hz : s.current_scope_hash = 0
      · -- the parent is the root `output_` itself
        have hif : (if Nat.xor (Nat.xor s.current_scope_hash (h name)) (h name) = 0
            then some ([] : List Nat)
            else mapLookup (Nat.xor (Nat.xor s.current_scope_hash (h name)) (h name))
              s.scope_data) = some ([] : List Nat) := by
          rw [hcur, if_pos hz]
        have hpush : pushBackAt s.output [] (ScopeOutput.mk [] name 0 (some 0)) =
            some (s.output ++ [ScopeOutput.mk [] name 0 (some 0)], [s.output.length]) := rfl
        refine ⟨_, Update_create_eq hk hl hif hpush, ?_⟩
        · constructor
          · exact iff_of_false hk (by simp)
          · right
            simp [mapLookup_append_none hl]
          · intro k' p' hmem
            rcases List.mem_append.mp hmem with hold | hnew
            · exact pushBackAt_preserves hpush (hs.map_valid _ _ hold)
            · rw [List.mem_singleton] at hnew
              have : p' = [s.output.length] := congrArg Prod.snd hnew
              subst this
              simp [pushBackAt_getNode_new hpush]
          · intro p' hp'
            simp only [Option.some.injEq] at hp'
            subst hp'
            simp [pushBackAt_getNode_new hpush]
          · rw [forestSamples_append_single, treeSamples_fresh]
            exact hs.counts
      · -- the parent is the node mapped for the previous (nonzero) path id
        have hsome := hs.hash_in_map.resolve_left hz
        rw [Option.isSome_iff_exists] at hsome
        obtain ⟨pp, hpp⟩ := hsome
        have hvalid : (getNode? s.output pp).isSome :=
          hs.map_valid _ _ (mapLookup_mem hpp)
        have hpush : (pushBackAt s.output pp (ScopeOutput.mk [] name 0 (some 0))).isSome :=
          pushBackAt_isSome (Or.inr hvalid)
        rw [Option.isSome_iff_exists] at hpush
        obtain ⟨⟨F', q⟩, hFq⟩ := hpush
        have hif : (if Nat.xor (Nat.xor s.current_scope_hash (h name)) (h name) = 0
            then some ([] : List Nat)
            else mapLookup (Nat.xor (Nat.xor s.current_scope_hash (h name)) (h name))
              s.scope_data) = some pp := by
          rw [hcur, if_neg hz]
          exact hpp
        refine ⟨_, Update_create_eq hk hl hif hFq, ?_⟩
        · constructor
          · exact iff_of_false hk (by simp)
          · right
            simp [mapLookup_append_none hl]
          · intro k' p' hmem
            rcases List.mem_append.mp hmem with hold | hnew
            · exact pushBackAt_preserves hFq (hs.map_valid _ _ hold)
            · rw [List.mem_singleton] at hnew
              have : p' = q := congrArg Prod.snd hnew
              subst this
              simp [pushBackAt_getNode_new hFq]
          · intro p' hp'
            simp only [Option.some.injEq] at hp'
            subst hp'
            simp [pushBackAt_getNode_new hFq]
          · rw [pushBackAt_forestSamples hFq, treeSamples_fresh]
            exact hs.counts

theorem TakeSample_inv {s : ThreadSamplingData} (hs : Inv s) : Inv (TakeSample s) := by
  cases hcur : s.current_scope with
  | none =>
    constructor
    · simpa [TakeSample, hcur] using hs.hash_scope
    · simpa [TakeSample, hcur] using hs.hash_in_map
    · intro k p hm
      simp only [TakeSample, hcur] at hm ⊢
      exact hs.map_valid _ _ hm
    · intro p hp
      simp only [TakeSample, hcur] at hp
      simp at hp
    · simp only [TakeSample, hcur]
      exact Nat.le_succ_of_le hs.counts
  | some p =>
    have hvalid : (getNode? s.output p).isSome := hs.cur_valid p hcur
    rw [Option.isSome_iff_exists] at hvalid
    obtain ⟨nd, hnd⟩ := hvalid
    constructor
    · simpa [TakeSample, hcur] using hs.hash_scope
    · simpa [TakeSample, hcur] using hs.hash_in_map
    · intro k p' hm
      simp only [TakeSample, hcur] at hm ⊢
      rw [incSamples_getNode_isSome]
      exact hs.map_valid _ _ hm
    · intro p' hp'
      simp only [TakeSample, hcur, Option.some.injEq] at hp' ⊢
      subst hp'
      rw [incSamples_getNode_isSome]
      exact hs.cur_valid p hcur
    · simp only [TakeSample, hcur]
      rw [incSamples_forestSamples hnd]
      exact Nat.succ_le_succ hs.counts

theorem step_some_inv (h : String → Nat) {s : ThreadSamplingData} (hs : Inv s) :
    ∀ op, ∃ s', step h s op = some s' ∧ Inv s'
  | Op.update name => Update_some_inv h name hs
  | Op.sample => ⟨TakeSample s, rfl, TakeSample_inv hs⟩

theorem runFrom_some_inv (h : String → Nat) :
    ∀ (ops : List Op) {s : ThreadSamplingData}, Inv s →
      ∃ s', runFrom h s ops = some s' ∧ Inv s' := by
  intro ops
  induction ops with
  | nil => intro s hs; exact ⟨s, rfl, hs⟩
  | cons op rest ih =>
    intro s hs
    obtain ⟨s₁, hst, hs₁⟩ := step_some_inv h hs op
    obtain ⟨s', hr, hi⟩ := ih hs₁
    exact ⟨s', by simp only [runFrom, hst]; exact hr, hi⟩

theorem run_inv (h : String → Nat) (ops : List Op) {s : ThreadSamplingData}
    (hr : run h ops = some s) : Inv s := by
  obtain ⟨s', hs', hi⟩ := runFrom_some_inv h ops initialState_inv
  rw [run, hs'] at hr
  injection hr with hx
  rw [← hx]
  exact hi

/-! ### Facts about the teardown accumulation -/

theorem forest_induct (P : List ScopeOutput → Prop) (hnil : P [])
    (hcons : ∀ cs n s p rest, P cs → P rest → P (ScopeOutput.mk cs n s p :: rest)) :
    ∀ F, P F := by
  have key : ∀ bound F, sizeOf F ≤ bound → P F := by
    intro bound
    induction bound with
    | zero =>
      intro F hF
      cases F with
      | nil => exact hnil
      | cons x rest =>
        obtain ⟨cs, nm, s, p⟩ := x
        simp [List.cons.sizeOf_spec, ScopeOutput.mk.sizeOf_spec] at hF
    | succ bound ih =>
      intro F hF
      cases F with
      | nil => exact hnil
      | cons x rest =>
        obtain ⟨cs, nm, s, p⟩ := x
        simp only [List.cons.sizeOf_spec, ScopeOutput.mk.sizeOf_spec] at hF
        refine hcons cs nm s p rest (ih cs ?_) (ih rest ?_) <;> omega
  intro F
  exact key (sizeOf F) F (le_refl _)

theorem forestAll_nil (P : ScopeOutput → Prop) : forestAll P [] := by
  simp [forestAll]

theorem forestAll_cons {P : ScopeOutput → Prop} {cs : List ScopeOutput} {n : String}
    {s : Nat} {p : Option ℚ} {rest : List ScopeOutput} :
    forestAll P (ScopeOutput.mk cs n s p :: rest) ↔
      P (ScopeOutput.mk cs n s p) ∧ forestAll P cs ∧ forestAll P rest := by
  simp [forestAll]

theorem forestAll_mono {P Q : ScopeOutput → Prop} (hPQ : ∀ x, P x → Q x) :
    ∀ F, forestAll P F → forestAll Q F := by
  refine forest_induct (fun F => forestAll P F → forestAll Q F) ?_ ?_
  · intro _; exact forestAll_nil Q
  · intro cs n s p rest ihcs ihrest hall
    rw [forestAll_cons] at hall ⊢
    exact ⟨hPQ _ hall.1, ihcs hall.2.1, ihrest hall.2.2⟩

/-- The relation between a node before accumulation and the corresponding
node afterwards, stated the way the specification describes the walk: the
name is kept, the children are accumulated in order, the final count is the
original count plus the sum of the children's final counts, and the
proportion is the final count divided by the thread's total (IEEE
division). -/
inductive AccRel (T : Nat) : ScopeOutput → ScopeOutput → Prop where
  | intro : ∀ pre post, post.name = pre.name →
      List.Forall₂ (AccRel T) pre.scope_outputs post.scope_outputs →
      post.samples = pre.samples + topSamplesSum post.scope_outputs →
      post.cpu_proportion = ieeeDiv post.samples T →
      AccRel T pre post

theorem accumulateList_cons (T : Nat) (cs : List ScopeOutput) (n : String) (s : Nat)
    (p : Option ℚ) (rest : List ScopeOutput) :
    accumulateList T (ScopeOutput.mk cs n s p :: rest) =
      ScopeOutput.mk (accumulateList T cs) n (s + topSamplesSum (accumulateList T cs))
        (ieeeDiv (s + topSamplesSum (accumulateList T cs)) T) :: accumulateList T rest := by
  simp [accumulateList]

theorem topSamplesSum_accumulateList (T : Nat) :
    ∀ F, topSamplesSum (accumulateList T F) = forestSamples F := by
  refine forest_induct _ ?_ ?_
  · simp [accumulateList, topSamplesSum, forestSamples]
  · intro cs n s p rest ihcs ihrest
    rw [accumulateList_cons]
    simp only [topSamplesSum, ScopeOutput.samples, forestSamples]
    rw [ihcs, ihrest]

theorem accRel_accumulateList (T : Nat) :
    ∀ F, List.Forall₂ (AccRel T) F (accumulateList T F) := by
  refine forest_induct _ ?_ ?_
  · simp [accumulateList]
  · intro cs n s p rest ihcs ihrest
    rw [accumulateList_cons]
    refine List.Forall₂.cons ?_ ihrest
    exact AccRel.intro _ _ rfl ihcs rfl rfl

theorem forestAll_cpu_accumulateList (T : Nat) :
    ∀ F, forestAll (fun m => m.cpu_proportion = ieeeDiv m.samples T)
      (accumulateList T F) := by
  refine forest_induct _ ?_ ?_
  · simp [accumulateList, forestAll]
  · intro cs n s p rest ihcs ihrest
    rw [accumulateList_cons, forestAll_cons]
    exact ⟨rfl, ihcs, ihrest⟩

theorem forestAll_child_le_accumulateList (T : Nat) :
    ∀ F, forestAll (fun m => topSamplesSum m.scope_outputs ≤ m.samples)
      (accumulateList T F) := by
  refine forest_induct _ ?_ ?_
  · simp [accumulateList, forestAll]
  · intro cs n s p rest ihcs ihrest
    rw [accumulateList_cons, forestAll_cons]
    refine ⟨?_, ihcs, ihrest⟩
    simp only [ScopeOutput.scope_outputs, ScopeOutput.samples]
    omega

theorem forestAll_le_forest_accumulateList (T : Nat) :
    ∀ F, forestAll (fun m => m.samples ≤ forestSamples F) (accumulateList T F) := by
  refine forest_induct _ ?_ ?_
  · simp [accumulateList, forestAll]
  · intro cs n s p rest ihcs ihrest
    rw [accumulateList_cons, forestAll_cons]
    refine ⟨?_, ?_, ?_⟩
    · simp only [ScopeOutput.samples, forestSamples]
      rw [topSamplesSum_accumulateList]
      omega
    · refine forestAll_mono (fun x hx => ?_) _ ihcs
      simp only [forestSamples]
      omega
    · refine forestAll_mono (fun x hx => ?_) _ ihrest
      simp only [forestSamples]
      omega

/-- The sum, over a child list, of the children's own (top-level) proportions
`samples / T`, used to state "a node's value is at least the sum of its
children's values". -/
def childPropSum (T : Nat) : List ScopeOutput → ℚ
  | [] => 0
  | c :: rest => (c.samples : ℚ) / (T : ℚ) + childPropSum T rest

theorem childPropSum_eq (T : Nat) :
    ∀ cs, childPropSum T cs = (topSamplesSum cs : ℚ) / (T : ℚ) := by
  intro cs
  induction cs with
  | nil => simp [childPropSum, topSamplesSum]
  | cons c rest ih =>
    simp only [childPropSum, topSamplesSum, ih, Nat.cast_add, add_div]

/-! ### Helper facts used by the claims -/

theorem forestAll_and {P Q : ScopeOutput → Prop} :
    ∀ F, forestAll P F → forestAll Q F → forestAll (fun x => P x ∧ Q x) F := by
  refine forest_induct _ ?_ ?_
  · intro _ _; exact forestAll_nil _
  · intro cs n s p rest ihcs ihrest hP hQ
    rw [forestAll_cons] at hP hQ ⊢
    exact ⟨⟨hP.1, hQ.1⟩, ihcs hP.2.1 hQ.2.1, ihrest hP.2.2 hQ.2.2⟩

theorem Update_at_zero (h : String → Nat) (n : String) {s : ThreadSamplingData}
    (h0 : s.current_scope_hash = 0) :
    ∃ s₁, Update h n s = some s₁ ∧
      s₁.current_scope_hash = Nat.xor s.current_scope_hash (h n) := by
  by_cases hk : Nat.xor s.current_scope_hash (h n) = 0
  · refine ⟨{ s with
        current_scope_hash := Nat.xor s.current_scope_hash (h n)
        current_scope := none }, by simp [Update, hk], rfl⟩
  · cases hl : mapLookup (Nat.xor s.current_scope_hash (h n)) s.scope_data with
    | some p =>
      refine ⟨{ s with
          current_scope_hash := Nat.xor s.current_scope_hash (h n)
          current_scope := some p }, by simp [Update, hk, hl], rfl⟩
    | none =>
      have hif : (if Nat.xor (Nat.xor s.current_scope_hash (h n)) (h n) = 0
          then some ([] : List Nat)
          else mapLookup (Nat.xor (Nat.xor s.current_scope_hash (h n)) (h n))
            s.scope_data) = some ([] : List Nat) := by
        rw [xor_xor_cancel, if_pos h0]
      exact ⟨_, Update_create_eq hk hl hif rfl, rfl⟩

/-- One balanced `enter(x)`/`exit(x)` pair per listed name (`Update` is both
the enter and the exit operation). -/
def pairSeq : List String → List Op
  | [] => []
  | n :: rest => Op.update n :: Op.update n :: pairSeq rest

/-! ### The claims -/

/-- C3: for any sequence of balanced `enter("x")`/`exit("x")` pairs performed
on one thread's sampling state that starts (and hence ends) outside any scope,
after each complete pair — i.e. after running `pairSeq ns` for every list of
names `ns` — the path identifier `current_scope_hash_` is back to `0` and
`current_scope_` is back to null. -/
theorem C3_balanced_pairs_return_to_root (h : String → Nat)
    (s : ThreadSamplingData) (h0 : s.current_scope_hash = 0)
    (hc : s.current_scope = none) :
    ∀ ns : List String, ∃ s', runFrom h s (pairSeq ns) = some s' ∧
      s'.current_scope_hash = 0 ∧ s'.current_scope = none := by
  intro ns
  induction ns generalizing s with
  | nil => exact ⟨s, rfl, h0, hc⟩
  | cons n rest ih =>
    obtain ⟨s₁, hu1, hcur1⟩ := Update_at_zero h n h0
    have hk2 : Nat.xor s₁.current_scope_hash (h n) = 0 := by
      rw [hcur1, xor_xor_cancel, h0]
    have hu2 : Update h n s₁ = some { s₁ with
        current_scope_hash := Nat.xor s₁.current_scope_hash (h n)
        current_scope := none } := by
      simp [Update, hk2]
    obtain ⟨s', hrest, hz', hn'⟩ := ih { s₁ with
      current_scope_hash := Nat.xor s₁.current_scope_hash (h n)
      current_scope := none } hk2 rfl
    refine ⟨s', ?_, hz', hn'⟩
    simp only [pairSeq, runFrom, step, hu1, hu2]
    exact hrest

/-- Witness for C3: one `enter("x")`/`exit("x")` pair from the freshly
constructed state. -/
theorem C3_witness :
    ∃ s', runFrom (fun _ => 1) initialState (pairSeq ["x"]) = some s' ∧
      s'.current_scope_hash = 0 ∧ s'.current_scope = none :=
  C3_balanced_pairs_return_to_root (fun _ => 1) initialState rfl rfl ["x"]

/-- C5: each `TakeSample` call increments `total_samples_` by exactly `1`
unconditionally; it increments the sample count of the current node by
exactly `1` precisely when `current_scope_` is not null (when it is null the
whole state apart from `total_samples_` is untouched), and no other node's
count changes. -/
theorem C5_take_sample_counts (s : ThreadSamplingData) :
    ((TakeSample s).total_samples = s.total_samples + 1) ∧
    (s.current_scope = none →
      TakeSample s = { s with total_samples := s.total_samples + 1 }) ∧
    (∀ p cs n sc q, s.current_scope = some p →
      getNode? s.output p = some (ScopeOutput.mk cs n sc q) →
      getNode? (TakeSample s).output p = some (ScopeOutput.mk cs n (sc + 1) q) ∧
      ∀ r, r ≠ p → (getNode? (TakeSample s).output r).map ScopeOutput.samples =
        (getNode? s.output r).map ScopeOutput.samples) := by
  refine ⟨rfl, ?_, ?_⟩
  · intro hc
    simp [TakeSample, hc]
  · intro p cs n sc q hc hnd
    constructor
    · simp only [TakeSample, hc]
      exact incSamples_getNode_self hnd
    · intro r hrp
      simp only [TakeSample, hc]
      exact incSamples_samples_other hrp

/-- Witness for C5 at a concrete one-node state whose node is current. -/
theorem C5_witness :
    getNode? (TakeSample ⟨1, 0, [(1, [0])], some [0],
        [ScopeOutput.mk [] "x" 0 (some 0)]⟩).output [0] =
      some (ScopeOutput.mk [] "x" 1 (some 0)) :=
  ((C5_take_sample_counts ⟨1, 0, [(1, [0])], some [0],
      [ScopeOutput.mk [] "x" 0 (some 0)]⟩).2.2 [0] [] "x" 0 (some 0) rfl rfl).1

/-- C7: in every state reachable from the freshly constructed per-thread
state by any sequence of enter/exit (`Update`) and sample (`TakeSample`)
operations, the path identifier `current_scope_hash_` equals `0` if and only
if `current_scope_` is null. -/
theorem C7_hash_zero_iff_no_scope (h : String → Nat) (ops : List Op)
    (s : ThreadSamplingData) (hr : run h ops = some s) :
    s.current_scope_hash = 0 ↔ s.current_scope = none :=
  (run_inv h ops hr).hash_scope

/-- Witness for C7 after the concrete trace enter "x", sample. -/
theorem C7_witness :
    (ThreadSamplingData.current_scope_hash
        ⟨1, 1, [(1, [0])], some [0], [ScopeOutput.mk [] "x" 1 (some 0)]⟩ = 0 ↔
      ThreadSamplingData.current_scope
        ⟨1, 1, [(1, [0])], some [0], [ScopeOutput.mk [] "x" 1 (some 0)]⟩ = none) :=
  C7_hash_zero_iff_no_scope (fun _ => 1) [Op.update "x", Op.sample]
    ⟨1, 1, [(1, [0])], some [0], [ScopeOutput.mk [] "x" 1 (some 0)]⟩ rfl

/-- C9: destroying a per-thread sampling state invokes the installed sink's
`HandleOutput` exactly once, unconditionally — there is no skip path, not
even when `total_samples_` is `0` — and when no receiver was installed
(`Init` never ran) the emission dereferences the absent sink. -/
theorem C9_destructor_always_emits_once (h : String → Nat) (ops : List Op)
    (s : ThreadSamplingData) (_hr : run h ops = some s) :
    destructorEmits true s = some [accumulateList s.total_samples s.output] ∧
    (∀ L, destructorEmits true s = some L → L.length = 1) ∧
    destructorEmits false s = none := by
  refine ⟨rfl, ?_, rfl⟩
  intro L hL
  have h1 : destructorEmits true s = some [accumulateList s.total_samples s.output] := rfl
  rw [h1] at hL
  injection hL with h2
  rw [← h2]
  rfl

/-- Witness for C9 at the freshly constructed state, whose `total_samples_`
is `0`: emission still happens (and is a single sink call). -/
theorem C9_witness :
    destructorEmits true initialState = some [accumulateList 0 []] ∧
    destructorEmits false initialState = none :=
  ⟨(C9_destructor_always_emits_once (fun _ => 1) [] initialState rfl).1,
   (C9_destructor_always_emits_once (fun _ => 1) [] initialState rfl).2.2⟩

/-- C4: when `Update` is called with a name whose XOR into the path id
yields a nonzero id not yet in `scope_data_`, it computes the parent id by
XOR-ing the same name's hash back in, locates the parent (the root when the
parent id is `0`, otherwise the table entry for the parent id), appends a
fresh node (given name, zero count, no children) to the *end* of the
parent's child list, records the new id-to-node mapping, and makes the new
node current. -/
theorem C4_unseen_id_creates_child (h : String → Nat) (name : String)
    (s : ThreadSamplingData) (pp : List Nat)
    (hk : Nat.xor s.current_scope_hash (h name) ≠ 0)
    (hnew : mapLookup (Nat.xor s.current_scope_hash (h name)) s.scope_data = none)
    (hpar : (Nat.xor (Nat.xor s.current_scope_hash (h name)) (h name) = 0 ∧ pp = []) ∨
      (Nat.xor (Nat.xor s.current_scope_hash (h name)) (h name) ≠ 0 ∧
        mapLookup (Nat.xor (Nat.xor s.current_scope_hash (h name)) (h name))
          s.scope_data = some pp))
    (hvalid : pp = [] ∨ (getNode? s.output pp).isSome) :
    ∃ F' q, pushBackAt s.output pp (ScopeOutput.mk [] name 0 (some 0)) = some (F', q) ∧
      Update h name s = some { s with
        current_scope_hash := Nat.xor s.current_scope_hash (h name)
        current_scope := some q
        scope_data := s.scope_data ++ [(Nat.xor s.current_scope_hash (h name), q)]
        output := F' } ∧
      childrenAt F' pp = (childrenAt s.output pp).map
        (fun cs => cs ++ [ScopeOutput.mk [] name 0 (some 0)]) ∧
      getNode? F' q = some (ScopeOutput.mk [] name 0 (some 0)) := by
  have hpush : (pushBackAt s.output pp (ScopeOutput.mk [] name 0 (some 0))).isSome :=
    pushBackAt_isSome hvalid
  rw [Option.isSome_iff_exists] at hpush
  obtain ⟨⟨F', q⟩, hFq⟩ := hpush
  have hif : (if Nat.xor (Nat.xor s.current_scope_hash (h name)) (h name) = 0
      then some ([] : List Nat)
      else mapLookup (Nat.xor (Nat.xor s.current_scope_hash (h name)) (h name))
        s.scope_data) = some pp := by
    rcases hpar with ⟨hz, hpp⟩ | ⟨hnz, hpp⟩
    · rw [if_pos hz, hpp]
    · rw [if_neg hnz]
      exact hpp
  exact ⟨F', q, hFq, Update_create_eq hk hnew hif hFq,
    pushBackAt_childrenAt hFq, pushBackAt_getNode_new hFq⟩

/-- Witness for C4: entering "x" from the freshly constructed state with a
hash function sending every name to `5`: the parent id is `0` (the root). -/
theorem C4_witness :
    ∃ F' q, pushBackAt initialState.output [] (ScopeOutput.mk [] "x" 0 (some 0)) =
        some (F', q) ∧
      Update (fun _ => 5) "x" initialState = some { initialState with
        current_scope_hash := Nat.xor initialState.current_scope_hash 5
        current_scope := some q
        scope_data := initialState.scope_data ++
          [(Nat.xor initialState.current_scope_hash 5, q)]
        output := F' } ∧
      childrenAt F' [] = (childrenAt initialState.output []).map
        (fun cs => cs ++ [ScopeOutput.mk [] "x" 0 (some 0)]) ∧
      getNode? F' q = some (ScopeOutput.mk [] "x" 0 (some 0)) :=
  C4_unseen_id_creates_child (fun _ => 5) "x" initialState []
    (by decide) rfl (Or.inl ⟨by decide, rfl⟩) (Or.inl rfl)

/-- The concrete (collision-free) hash assignment used to refute C6:
`"n" ↦ 1`, every other name (in particular `"a"`) `↦ 2`. -/
def hC6 : String → Nat := fun nm => if nm = "n" then 1 else 2

/-- C6 counterexample: the claim fails for *indirect* recursion.  With the
collision-free hashes `h("n") = 1`, `h("a") = 2`, the trace
enter "n", enter "a", enter "n" re-enters a name already active on the call
path, yet `Update` *does* create a deeper node: the path id becomes
`1 XOR 2 XOR 1 = 2` — the id of the path `[a]`, not the parent id `1` of the
current path `[n, a]` — and a fresh node named "n" is appended at depth 3
(path `[0, 0, 0]`, child of n/a) and mapped under id `2`. -/
theorem C6_counterexample :
    run hC6 [Op.update "n", Op.update "a", Op.update "n"] =
      some ⟨2, 0, [(1, [0]), (3, [0, 0]), (2, [0, 0, 0])], some [0, 0, 0],
        [ScopeOutput.mk
          [ScopeOutput.mk [ScopeOutput.mk [] "n" 0 (some 0)] "a" 0 (some 0)]
          "n" 0 (some 0)]⟩ ∧
    getNode?
      [ScopeOutput.mk
        [ScopeOutput.mk [ScopeOutput.mk [] "n" 0 (some 0)] "a" 0 (some 0)]
        "n" 0 (some 0)] [0, 0, 0] = some (ScopeOutput.mk [] "n" 0 (some 0)) ∧
    ((2 : Nat) == 1) = false :=
  ⟨rfl, rfl, rfl⟩

/-- C6 as amended: only *direct* recursion (re-entering the name of the
innermost active scope, i.e. a state whose path id decomposes as the
enclosing id `x` XOR the name's hash, with `x` the id recorded one level up)
cancels the path id back to the parent id `x` and creates no node and no
mapping; for indirect recursion the name's hash is cancelled out of the path
id, which need not be the parent id and may create a node
(see the counterexample). -/
theorem C6_direct_recursion_no_node (h : String → Nat) (n : String)
    (s : ThreadSamplingData) (x : Nat)
    (hdecomp : s.current_scope_hash = Nat.xor x (h n))
    (hx : x = 0 ∨ (mapLookup x s.scope_data).isSome) :
    ∃ s', Update h n s = some s' ∧ s'.current_scope_hash = x ∧
      s'.output = s.output ∧ s'.scope_data = s.scope_data := by
  have hk : Nat.xor s.current_scope_hash (h n) = x := by
    rw [hdecomp, xor_xor_cancel]
  by_cases hx0 : x = 0
  · refine ⟨{ s with
        current_scope_hash := Nat.xor s.current_scope_hash (h n)
        current_scope := none }, by simp [Update, hk, hx0], ?_, rfl, rfl⟩
    rw [← hk] at hx0
    exact hx0.symm ▸ hk
  · have hxm := hx.resolve_left hx0
    rw [Option.isSome_iff_exists] at hxm
    obtain ⟨p, hp⟩ := hxm
    have hl : mapLookup (Nat.xor s.current_scope_hash (h n)) s.scope_data = some p := by
      rw [hk]; exact hp
    have hknz : ¬ Nat.xor s.current_scope_hash (h n) = 0 := by
      rw [hk]; exact hx0
    exact ⟨{ s with
        current_scope_hash := Nat.xor s.current_scope_hash (h n)
        current_scope := some p }, by simp [Update, hknz, hl], hk, rfl, rfl⟩

/-- Witness for the amended C6: with every hash `1`, the state reached after
entering "x" (path id `1 = 0 XOR 1`, parent id `0`) re-enters "x": the id
cancels back to `0` and neither the tree nor the map changes. -/
theorem C6_witness :
    ∃ s', Update (fun _ => 1) "x"
        ⟨1, 0, [(1, [0])], some [0], [ScopeOutput.mk [] "x" 0 (some 0)]⟩ = some s' ∧
      s'.current_scope_hash = 0 ∧
      s'.output = [ScopeOutput.mk [] "x" 0 (some 0)] ∧
      s'.scope_data = [(1, [0])] :=
  C6_direct_recursion_no_node (fun _ => 1) "x"
    ⟨1, 0, [(1, [0])], some [0], [ScopeOutput.mk [] "x" 0 (some 0)]⟩ 0
    (by decide) (Or.inl rfl)

/-- No sequence of `Update`/`TakeSample` operations on a freshly constructed
per-thread state — stack-ordered or not, with or without hash collisions —
can make `Update`'s parent lookup miss (which in C++ would insert a null
mapping via `operator[]` and dereference it, the situation `run` models by
returning `none`). -/
def TraceAlwaysSafe : Prop :=
  ∀ (h : String → Nat) (ops : List Op), (run h ops).isSome

/-- C10 counterexample: the claim's final clause — that outside the
properly-nested, collision-free precondition the parent lookup *can* insert
and dereference a missing (null) entry — is false.  This proves its
negation: every operation sequence whatsoever, from the fresh state, runs to
completion with the parent lookup always resolving (`TraceAlwaysSafe`), so
the null-dereference path is unreachable with or without the precondition. -/
theorem C10_counterexample : TraceAlwaysSafe := by
  intro h ops
  obtain ⟨s', hs', _⟩ := runFrom_some_inv h ops initialState_inv
  rw [run, hs']
  rfl

/-- C10 as amended: for *every* reachable per-thread state (no nesting or
collision-freedom precondition needed), `Update` never fails, and whenever
it would create a node for a new nonzero path id, the computed parent id
(the same name's hash XOR-ed back in) is either `0` or already present in
`scope_data_` — the parent lookup never fabricates or dereferences a
missing entry. -/
theorem C10_parent_always_present (h : String → Nat) (ops : List Op)
    (s : ThreadSamplingData) (hr : run h ops = some s) (name : String) :
    (Update h name s).isSome ∧
    (Nat.xor s.current_scope_hash (h name) ≠ 0 →
      mapLookup (Nat.xor s.current_scope_hash (h name)) s.scope_data = none →
      Nat.xor (Nat.xor s.current_scope_hash (h name)) (h name) = 0 ∨
        (mapLookup (Nat.xor (Nat.xor s.current_scope_hash (h name)) (h name))
          s.scope_data).isSome) := by
  have hs := run_inv h ops hr
  constructor
  · obtain ⟨s', hu, _⟩ := Update_some_inv h name hs
    rw [hu]
    rfl
  · intro _ _
    rw [xor_xor_cancel]
    exact hs.hash_in_map

/-- Witness for the amended C10 after the non-stack-ordered trace
enter "n", enter "a", enter "n" (the C6 counterexample trace). -/
theorem C10_witness :
    (Update hC6 "a"
      ⟨2, 0, [(1, [0]), (3, [0, 0]), (2, [0, 0, 0])], some [0, 0, 0],
        [ScopeOutput.mk
          [ScopeOutput.mk [ScopeOutput.mk [] "n" 0 (some 0)] "a" 0 (some 0)]
          "n" 0 (some 0)]⟩).isSome ∧
    (Nat.xor 2 (hC6 "a") ≠ 0 →
      mapLookup (Nat.xor 2 (hC6 "a")) [(1, [0]), (3, [0, 0]), (2, [0, 0, 0])] = none →
      Nat.xor (Nat.xor 2 (hC6 "a")) (hC6 "a") = 0 ∨
        (mapLookup (Nat.xor (Nat.xor 2 (hC6 "a")) (hC6 "a"))
          [(1, [0]), (3, [0, 0]), (2, [0, 0, 0])]).isSome) :=
  C10_parent_always_present hC6 [Op.update "n", Op.update "a", Op.update "n"]
    ⟨2, 0, [(1, [0]), (3, [0, 0]), (2, [0, 0, 0])], some [0, 0, 0],
      [ScopeOutput.mk
        [ScopeOutput.mk [ScopeOutput.mk [] "n" 0 (some 0)] "a" 0 (some 0)]
        "n" 0 (some 0)]⟩ rfl "a"

theorem gstep_preserves (s : ExtState) (g : GOp)
    (hs : s.sampling_worker = some WorkerState.joined → s.keep_sampling = false) :
    ∃ s', gstep s g = some s' ∧
      (s'.sampling_worker = some WorkerState.joined → s'.keep_sampling = false) := by
  cases g with
  | init =>
    refine ⟨Init s, rfl, ?_⟩
    obtain ⟨kp, wk, rc⟩ := s
    cases wk with
    | none =>
      intro hj
      simp [Init] at hj
    | some w =>
      intro hj
      simp only [Init] at hj ⊢
      simp only [Option.isNone_some, Bool.false_eq_true, if_false] at hj ⊢
      exact hs hj
  | stop =>
    obtain ⟨kp, wk, rc⟩ := s
    cases kp with
    | false => exact ⟨_, rfl, hs⟩
    | true =>
      cases wk with
      | none => exact ⟨_, rfl, hs⟩
      | some w =>
        cases w with
        | running =>
          refine ⟨⟨false, some WorkerState.joined, rc⟩, rfl, ?_⟩
          intro _
          rfl
        | joined =>
          have hx := hs rfl
          simp at hx

theorem grun_isSome : ∀ (gops : List GOp) (s : ExtState),
    (s.sampling_worker = some WorkerState.joined → s.keep_sampling = false) →
    (grun s gops).isSome := by
  intro gops
  induction gops with
  | nil => intro s _; rfl
  | cons g gs ih =>
    intro s hs
    obtain ⟨s', hg, hs'⟩ := gstep_preserves s g hs
    simp only [grun, hg]
    exact ih s' hs'

/-- C8: `Stop` without a prior `Init` is a no-op; a second `Init` while the
worker thread exists is a no-op; `Stop` right after any successful `Stop` is
a no-op (never a second join); and no sequence of `Init`/`Stop` calls from
the static initial state can ever reach the failing join (`grun` never
returns `none`), because after a join `keep_sampling` is false and the join
branch is guarded by it. -/
theorem C8_init_stop_safe_noops :
    Stop extInitial = some extInitial ∧
    (∀ s : ExtState, s.sampling_worker.isSome → Init s = s) ∧
    (∀ s s' : ExtState, Stop s = some s' → Stop s' = some s') ∧
    ∀ gops : List GOp, (grun extInitial gops).isSome := by
  refine ⟨rfl, ?_, ?_, ?_⟩
  · intro s hw
    obtain ⟨kp, wk, rc⟩ := s
    cases wk with
    | none => simp at hw
    | some w => rfl
  · intro s s' hss
    obtain ⟨kp, wk, rc⟩ := s
    cases kp with
    | false =>
      rw [show Stop ⟨false, wk, rc⟩ = some ⟨false, wk, rc⟩ from rfl] at hss
      injection hss with h1
      rw [← h1]
      rfl
    | true =>
      cases wk with
      | none =>
        rw [show Stop ⟨true, none, rc⟩ = some ⟨true, none, rc⟩ from rfl] at hss
        injection hss with h1
        rw [← h1]
        rfl
      | some w =>
        cases w with
        | running =>
          rw [show Stop ⟨true, some WorkerState.running, rc⟩ =
              some ⟨false, some WorkerState.joined, rc⟩ from rfl] at hss
          injection hss with h1
          rw [← h1]
          rfl
        | joined =>
          rw [show Stop ⟨true, some WorkerState.joined, rc⟩ = none from rfl] at hss
          cases hss
  · intro gops
    refine grun_isSome gops extInitial ?_
    intro hj
    cases hj

/-- Witness for C8: a second `Stop` right after the `Stop` that joined the
worker is accepted and changes nothing. -/
theorem C8_witness :
    Stop ⟨false, some WorkerState.joined, true⟩ =
      some ⟨false, some WorkerState.joined, true⟩ :=
  C8_init_stop_safe_noops.2.2.1 ⟨true, some WorkerState.running, true⟩
    ⟨false, some WorkerState.joined, true⟩ rfl

/-- C1: for every reachable per-thread state with `total_samples_ > 0`, the
teardown accumulation is the described post-order walk (each node's final
count is its original count plus the sum of its children's final counts, the
name is kept, and `cpu_proportion_` is the final count divided by
`total_samples_`), every emitted proportion equals final count over total,
and every node's value is at least the sum of its children's values and at
most `1`. -/
theorem C1_accumulation_postorder (h : String → Nat) (ops : List Op)
    (s : ThreadSamplingData) (hr : run h ops = some s)
    (hT : 0 < s.total_samples) :
    List.Forall₂ (AccRel s.total_samples) s.output
      (accumulateList s.total_samples s.output) ∧
    forestAll (fun m => m.cpu_proportion =
        some ((m.samples : ℚ) / (s.total_samples : ℚ)))
      (accumulateList s.total_samples s.output) ∧
    forestAll (fun m =>
        childPropSum s.total_samples m.scope_outputs ≤
          (m.samples : ℚ) / (s.total_samples : ℚ) ∧
        (m.samples : ℚ) / (s.total_samples : ℚ) ≤ 1)
      (accumulateList s.total_samples s.output) := by
  have hs := run_inv h ops hr
  have hTne : s.total_samples ≠ 0 := Nat.pos_iff_ne_zero.mp hT
  have hT0 : (0 : ℚ) < (s.total_samples : ℚ) := by exact_mod_cast hT
  refine ⟨accRel_accumulateList _ _, ?_, ?_⟩
  · refine forestAll_mono (fun m hm => ?_) _
      (forestAll_cpu_accumulateList s.total_samples s.output)
    rw [hm, ieeeDiv, if_neg hTne]
  · have hcomb := forestAll_and _
      (forestAll_child_le_accumulateList s.total_samples s.output)
      (forestAll_le_forest_accumulateList s.total_samples s.output)
    refine forestAll_mono (fun m hm => ?_) _ hcomb
    obtain ⟨h1, h2⟩ := hm
    constructor
    · rw [childPropSum_eq]
      have hcast : (topSamplesSum m.scope_outputs : ℚ) ≤ (m.samples : ℚ) := by
        exact_mod_cast h1
      exact div_le_div_of_nonneg_right hcast (le_of_lt hT0)
    · rw [div_le_one hT0]
      have hle : m.samples ≤ s.total_samples := le_trans h2 hs.counts
      exact_mod_cast hle

/-- Witness for C1 after the trace enter "x", sample (one node holding the
single sample; `total_samples_ = 1`). -/
theorem C1_witness :
    List.Forall₂ (AccRel 1) [ScopeOutput.mk [] "x" 1 (some 0)]
      (accumulateList 1 [ScopeOutput.mk [] "x" 1 (some 0)]) ∧
    forestAll (fun m => m.cpu_proportion = some ((m.samples : ℚ) / ((1 : Nat) : ℚ)))
      (accumulateList 1 [ScopeOutput.mk [] "x" 1 (some 0)]) ∧
    forestAll (fun m =>
        childPropSum 1 m.scope_outputs ≤ (m.samples : ℚ) / ((1 : Nat) : ℚ) ∧
        (m.samples : ℚ) / ((1 : Nat) : ℚ) ≤ 1)
      (accumulateList 1 [ScopeOutput.mk [] "x" 1 (some 0)]) :=
  C1_accumulation_postorder (fun _ => 1) [Op.update "x", Op.sample]
    ⟨1, 1, [(1, [0])], some [0], [ScopeOutput.mk [] "x" 1 (some 0)]⟩ rfl
    (by decide)

/-- C2 (evidence for the code bug): the destructor has *no* guard on a zero
`total_samples_`.  After entering scope "x" and never being sampled
(`total_samples_ = 0`), destruction still emits, and the emitted node's
proportion is the IEEE result of `0.0 / 0.0` — not a real number (`none` in
the model, NaN in C++) and in particular not the `0` the specification
mandates. -/
theorem C2_zero_total_divides_by_zero :
    run (fun _ => 1) [Op.update "x"] =
      some ⟨1, 0, [(1, [0])], some [0], [ScopeOutput.mk [] "x" 0 (some 0)]⟩ ∧
    destructorEmits true
        ⟨1, 0, [(1, [0])], some [0], [ScopeOutput.mk [] "x" 0 (some 0)]⟩ =
      some [[ScopeOutput.mk [] "x" 0 none]] ∧
    (ScopeOutput.cpu_proportion (ScopeOutput.mk [] "x" 0 none)).isSome = false := by
  refine ⟨rfl, ?_, rfl⟩
  simp [destructorEmits, accumulateList, topSamplesSum, ieeeDiv]

end Lurien
